import Mathlib

/-!
Verification of the calendar event aggregation and trend-analysis engine
(`calendar_logic.py`, `date_utils.py`) against its specification.

Modelling choices:
* Python floats are modelled by `ℚ` (the spec speaks of exact arithmetic on
  hours, never of rounding).
* Calendar dates are modelled by their proleptic Gregorian ordinal (an
  integer, day 1 = 0001-01-01, a Monday), exactly the representation that
  underlies Python's `date` arithmetic; `toordinal` below reproduces the
  conversion from (year, month, day).
* A raw calendar event is a record of optional start/end timestamps
  (seconds), an optional colour tag and an optional title, mirroring the
  `event.get(...)` accesses of the code.
* Python dicts preserve insertion order, so they are modelled by
  association lists together with the order-preserving update operations
  `upsert` (the `defaultdict(float)` accumulation `d[k] += v`) and
  `dictInsert` (plain assignment `d[k] = v`).
* Python's `sorted` is a stable sort; it is modelled by `List.mergeSort`,
  which is also stable, and stability is proved from `List.mergeSort_enum`.
* Python's `str.strip` and `str.lower` (on the ASCII titles involved) are
  modelled by the character-list functions `pyStrip` and `pyLower`.
-/

namespace CalendarTracker

/-! ### String normalisation (`.strip()` / `.lower()`) -/

/-- The characters Python's `str.strip()` removes by default. -/
def isSpaceChar (c : Char) : Bool :=
  c = ' ' || c = '\t' || c = '\n' || c = '\x0d' || c = '\x0b' || c = '\x0c'

/-- ASCII lowering of one character, as `str.lower` does on ASCII text. -/
def lowerChar (c : Char) : Char :=
  if 'A' ≤ c ∧ c ≤ 'Z' then Char.ofNat (c.toNat + 32) else c

/-- `s.strip()`: drop whitespace from both ends. -/
def pyStrip (s : String) : String :=
  ⟨((s.data.dropWhile isSpaceChar).reverse.dropWhile isSpaceChar).reverse⟩

/-- `s.lower()`. -/
def pyLower (s : String) : String :=
  ⟨s.data.map lowerChar⟩

/-! ### Ordered-dictionary operations -/

/-- `d[k] += v` on a `defaultdict(float)`: add into the existing entry,
else append a fresh entry at the end (insertion order preserved). -/
def upsert (k : String) (v : ℚ) : List (String × ℚ) → List (String × ℚ)
  | [] => [(k, v)]
  | p :: rest => if p.1 = k then (p.1, p.2 + v) :: rest else p :: upsert k v rest

/-- `d[k] = v` on a dict: overwrite the existing entry in place, else
append a fresh entry at the end. -/
def dictInsert {α : Type} (k : String) (v : α) :
    List (String × α) → List (String × α)
  | [] => [(k, v)]
  | p :: rest => if p.1 = k then (k, v) :: rest else p :: dictInsert k v rest

/-- `d.get(k)` / `k in d`. -/
def dictFind {α : Type} (m : List (String × α)) (k : String) : Option α :=
  (m.find? (fun p => p.1 == k)).map (·.2)

/-! ### The fixed classification table -/

/-- `COLOR_CATEGORY_MAP` from `calendar_logic.py`, in source order. -/
def COLOR_CATEGORY_MAP : List (String × String) :=
  [("2", "Professional Tasks"),
   ("7", "Meetings"),
   ("3", "Social Connections"),
   ("5", "Emotional Recharge"),
   ("1", "Self-Maintenance"),
   ("0", "Self-Maintenance"),
   ("6", "Life Admin"),
   ("8", "Mental Struggles"),
   ("11", "Romance")]

/-! ### Events -/

/-- A raw calendar event as the analyzers read it: optional start/end
timestamps (seconds), optional colour tag, optional title. -/
structure Event where
  startDT : Option ℚ
  endDT : Option ℚ
  colorId : Option String
  summary : Option String

/-- `event.get('colorId', '0')`. -/
def effectiveColorId (e : Event) : String := e.colorId.getD "0"

/-- Category resolution through the fixed table. -/
def classify (e : Event) : Option String :=
  dictFind COLOR_CATEGORY_MAP (effectiveColorId e)

/-- `if not start or not end or color_id not in COLOR_CATEGORY_MAP: skip`. -/
def validEvent (e : Event) : Bool :=
  e.startDT.isSome && e.endDT.isSome && (classify e).isSome

/-- The category of a valid event. -/
def eventCategory (e : Event) : String := (classify e).getD ""

/-- `(end_dt - start_dt).total_seconds() / 3600`. -/
def duration (e : Event) : ℚ := (e.endDT.getD 0 - e.startDT.getD 0) / 3600

/-- Title key in the cross-category summary view:
`event.get('summary', 'Untitled').strip().lower()`. -/
def summaryTitle (e : Event) : String := pyLower (pyStrip (e.summary.getD "Untitled"))

/-- Title key in the per-category breakdown view:
`event.get('summary', 'Untitled').strip()`. -/
def breakdownTitle (e : Event) : String := pyStrip (e.summary.getD "Untitled")

/-! ### Duration Aggregator (`analyze_events`) -/

/-- One loop step accumulating `category_time`. -/
def addEventCat (acc : List (String × ℚ)) (e : Event) : List (String × ℚ) :=
  if validEvent e then upsert (eventCategory e) (duration e) acc else acc

/-- `category_time` after processing all events. -/
def categoryTime (events : List Event) : List (String × ℚ) :=
  events.foldl addEventCat []

/-- Add into the nested map `category_title_duration[category][title]`. -/
def upsertNested (cat title : String) (v : ℚ) :
    List (String × List (String × ℚ)) → List (String × List (String × ℚ))
  | [] => [(cat, [(title, v)])]
  | p :: rest =>
    if p.1 = cat then (p.1, upsert title v p.2) :: rest
    else p :: upsertNested cat title v rest

/-- One loop step accumulating `category_title_duration`. -/
def addEventTitle (acc : List (String × List (String × ℚ))) (e : Event) :
    List (String × List (String × ℚ)) :=
  if validEvent e then upsertNested (eventCategory e) (summaryTitle e) (duration e) acc
  else acc

/-- `category_title_duration` after processing all events. -/
def categoryTitleDuration (events : List Event) : List (String × List (String × ℚ)) :=
  events.foldl addEventTitle []

/-- The comparator realised by `sorted(..., key=lambda x: -x[1])`:
descending by hours. -/
def hoursLE (a b : String × ℚ) : Bool := b.2 ≤ a.2

/-- `sorted(titles.items(), key=lambda x: -x[1])[:n]` — the Ranking
Engine's `top_n` (Python's `sorted` is stable, as is `mergeSort`). -/
def topN (m : List (String × ℚ)) (n : ℕ) : List (String × ℚ) :=
  (m.mergeSort hoursLE).take n

/-- `analyze_events`: `category_time` plus the top-3 titles per category. -/
def analyze_events (events : List Event) :
    List (String × ℚ) × List (String × List (String × ℚ)) :=
  (categoryTime events,
   (categoryTitleDuration events).map (fun p => (p.1, topN p.2 3)))

/-! ### Weekly Trend Analyzer (`analyze_weekly_trends`) -/

/-- One category's trend record. -/
structure Trend where
  hoursList : List ℚ
  trendChange : ℚ
  percentageChange : ℚ
  recentAvg : ℚ
  olderAvg : ℚ
  direction : String

/-- The per-category trend computation of `analyze_weekly_trends`. -/
def trendOf (l : List ℚ) : Trend :=
  if 2 ≤ l.length then
    let recentAvg : ℚ := (l.drop (l.length - 2)).sum / 2
    let olderAvg : ℚ :=
      if 2 < l.length then (l.take (l.length - 2)).sum / (max 1 (l.length - 2) : ℕ)
      else l.headD 0
    let trendChange := recentAvg - olderAvg
    { hoursList := l
      trendChange := trendChange
      percentageChange := if 0 < olderAvg then trendChange / olderAvg * 100 else 0
      recentAvg := recentAvg
      olderAvg := olderAvg
      direction :=
        if 1/2 < trendChange then "increasing"
        else if trendChange < -(1/2) then "decreasing"
        else "stable" }
  else
    { hoursList := l
      trendChange := 0
      percentageChange := 0
      recentAvg := l.headD 0
      olderAvg := l.headD 0
      direction := "stable" }

/-- One category's back-filled `hours_list` over the weekly data
(`week_data['category_time'].get(category, 0.0)` per week). -/
def weekHours (weeklyData : List (List (String × ℚ))) (cat : String) : List ℚ :=
  weeklyData.map (fun w => (dictFind w cat).getD 0)

/-- `all_category_hours`: iterate the table's values (duplicates and all),
assigning each category its back-filled list; dict assignment dedups. -/
def allCategoryHours (weeklyData : List (List (String × ℚ))) :
    List (String × List ℚ) :=
  (COLOR_CATEGORY_MAP.map (·.2)).foldl
    (fun acc cat => dictInsert cat (weekHours weeklyData cat) acc) []

/-- The `trends` mapping, as a function of the per-week `category_time`
maps (the network fetch that produces them is outside the core). -/
def trendsOf (weeklyData : List (List (String × ℚ))) : List (String × Trend) :=
  (allCategoryHours weeklyData).map (fun p => (p.1, trendOf p.2))

/-! ### Category Breakdown Analyzer (`analyze_category_breakdown`) -/

/-- One loop step accumulating `category_events[target][title]`
(only events of the target category are tracked). -/
def addEventBreakdown (target : String) (acc : List (String × ℚ)) (e : Event) :
    List (String × ℚ) :=
  if validEvent e && (eventCategory e == target)
  then upsert (breakdownTitle e) (duration e) acc
  else acc

/-- The result record of `analyze_category_breakdown`. -/
structure Breakdown where
  category_total_hours : ℚ
  category_percentage : ℚ
  event_types : List (String × ℚ)
  event_type_percentages : List (String × ℚ)
  top_events : List (String × ℚ)
  total_calendar_hours : ℚ

/-- `analyze_category_breakdown`, as a function of the fetched events. -/
def analyze_category_breakdown (events : List Event) (target : String) : Breakdown :=
  let allCat := categoryTime events
  let eventTypes := events.foldl (addEventBreakdown target) []
  let catTotal := (dictFind allCat target).getD 0
  let total := (allCat.map (·.2)).sum
  { category_total_hours := catTotal
    category_percentage := if 0 < total then catTotal / total * 100 else 0
    event_types := eventTypes
    event_type_percentages :=
      if 0 < catTotal then eventTypes.map (fun p => (p.1, p.2 / catTotal * 100))
      else []
    top_events := topN eventTypes 10
    total_calendar_hours := total }

/-! ### Date-Range Resolver (`date_utils.py`) -/

/-- `date.weekday()` on an ordinal: Monday = 0 … Sunday = 6
(ordinal 1 = 0001-01-01 is a Monday). -/
def pyWeekday (d : ℤ) : ℤ := (d + 6) % 7

/-- `get_week_range`: Sunday-to-Saturday week containing the reference
date. -/
def get_week_range (ref : ℤ) : ℤ × ℤ :=
  let start := if pyWeekday ref ≠ 6 then ref - (pyWeekday ref + 1) else ref
  (start, start + 6)

/-- `validate_custom_range`: raise `ValueError` iff start > end. -/
def validate_custom_range (s e : ℤ) : Except String (ℤ × ℤ) :=
  if e < s then Except.error "Start date cannot be after end date"
  else Except.ok (s, e)

/-- Leap-year test of the Gregorian calendar. -/
def isLeapYear (y : ℕ) : Bool := y % 4 == 0 && (y % 100 != 0 || y % 400 == 0)

/-- Month lengths of a non-leap year. -/
def DAYS_IN_MONTH : List ℕ := [31, 28, 31, 30, 31, 30, 31, 31, 30, 31, 30, 31]

/-- Days before January 1 of year `y` (Python's `_days_before_year`). -/
def daysBeforeYear (y : ℕ) : ℕ :=
  365 * (y - 1) + (y - 1) / 4 - (y - 1) / 100 + (y - 1) / 400

/-- Days in year `y` before month `m` (Python's `_days_before_month`). -/
def daysBeforeMonth (y m : ℕ) : ℕ :=
  (DAYS_IN_MONTH.take (m - 1)).sum + (if 2 < m ∧ isLeapYear y then 1 else 0)

/-- `date(y, m, d).toordinal()`. -/
def toordinal (y m d : ℕ) : ℤ :=
  (daysBeforeYear y + daysBeforeMonth y m + d : ℕ)

/-! ## Helper lemmas -/

/-- Total of the accumulated values grows by exactly the upserted amount. -/
theorem upsert_sum (k : String) (v : ℚ) (l : List (String × ℚ)) :
    ((upsert k v l).map (·.2)).sum = (l.map (·.2)).sum + v := by
  induction l with
  | nil => simp [upsert]
  | cons p rest ih =>
    by_cases h : p.1 = k
    · simp [upsert, h]; ring
    · simp [upsert, h, ih]; ring

/-- The aggregation loop adds exactly the valid events' durations. -/
theorem foldl_addEventCat_sum (evs : List Event) : ∀ acc : List (String × ℚ),
    ((evs.foldl addEventCat acc).map (·.2)).sum
      = (acc.map (·.2)).sum + ((evs.filter validEvent).map duration).sum := by
  induction evs with
  | nil => simp
  | cons e rest ih =>
    intro acc
    by_cases h : validEvent e
    · simp [List.foldl_cons, addEventCat, h, List.filter_cons, ih, upsert_sum]
      ring
    · simp [List.foldl_cons, addEventCat, h, List.filter_cons, ih]

/-- The grand total of `category_time` is the sum of valid durations. -/
theorem categoryTime_sum_eq (events : List Event) :
    ((categoryTime events).map (·.2)).sum
      = ((events.filter validEvent).map duration).sum := by
  simpa using foldl_addEventCat_sum events []

/-- Membership in a dict after assignment. -/
theorem mem_dictInsert {α : Type} (k : String) (v : α) (l : List (String × α))
    (p : String × α) (hp : p ∈ dictInsert k v l) : p = (k, v) ∨ p ∈ l := by
  induction l with
  | nil => simpa [dictInsert] using hp
  | cons q rest ih =>
    by_cases h : q.1 = k
    · rw [dictInsert, if_pos h] at hp
      rcases List.mem_cons.mp hp with h1 | h1
      · exact Or.inl h1
      · exact Or.inr (List.mem_cons_of_mem _ h1)
    · rw [dictInsert, if_neg h] at hp
      rcases List.mem_cons.mp hp with h1 | h1
      · exact Or.inr (h1 ▸ List.mem_cons_self _ _)
      · rcases ih h1 with h2 | h2
        · exact Or.inl h2
        · exact Or.inr (List.mem_cons_of_mem _ h2)

/-- Every entry of `all_category_hours` carries its own back-filled list. -/
theorem allCategoryHours_values (wd : List (List (String × ℚ)))
    (p : String × List ℚ) (hp : p ∈ allCategoryHours wd) : p.2 = weekHours wd p.1 := by
  have key : ∀ (cats : List String) (acc : List (String × List ℚ)),
      (∀ q ∈ acc, q.2 = weekHours wd q.1) →
      ∀ q ∈ cats.foldl (fun acc cat => dictInsert cat (weekHours wd cat) acc) acc,
        q.2 = weekHours wd q.1 := by
    intro cats
    induction cats with
    | nil => intro acc hacc q hq; exact hacc q hq
    | cons c rest ih =>
      intro acc hacc q hq
      refine ih _ ?_ q hq
      intro r hr
      rcases mem_dictInsert _ _ _ _ hr with h1 | h1
      · rw [h1]
      · exact hacc r h1
  exact key _ [] (by simp) p hp

/-- The key set of `all_category_hours` is the table's deduplicated value
set in first-occurrence order, for any weekly data. -/
theorem allCategoryHours_keys (wd : List (List (String × ℚ))) :
    (allCategoryHours wd).map (·.1)
      = ["Professional Tasks", "Meetings", "Social Connections", "Emotional Recharge",
         "Self-Maintenance", "Life Admin", "Mental Struggles", "Romance"] := rfl

/-- `trendOf` stores its input untouched in `hoursList`. -/
theorem trendOf_hoursList (l : List ℚ) : (trendOf l).hoursList = l := by
  unfold trendOf
  split <;> rfl

/-- Upserting a different key leaves a lookup unchanged. -/
theorem dictFind_upsert_ne (k c : String) (v : ℚ) (l : List (String × ℚ)) (h : k ≠ c) :
    dictFind (upsert k v l) c = dictFind l c := by
  induction l with
  | nil =>
    have hb : (k == c) = false := beq_eq_false_iff_ne.mpr h
    simp [upsert, dictFind, List.find?, hb]
  | cons q rest ih =>
    by_cases hq : q.1 = k
    · rw [upsert, if_pos hq]
      simp only [dictFind, List.find?]
      have : (q.1 == c) = false := by simp [hq, h]
      simp [this]
    · rw [upsert, if_neg hq]
      simp only [dictFind, List.find?] at ih ⊢
      cases hqc : (q.1 == c) <;> simp [hqc, ih]

/-- A category with no valid events in a window is absent from
`category_time`. -/
theorem dictFind_categoryTime_none (evs : List Event) (c : String)
    (h : ∀ e ∈ evs, validEvent e = true → eventCategory e ≠ c) :
    dictFind (categoryTime evs) c = none := by
  have key : ∀ (l : List Event) (acc : List (String × ℚ)),
      (∀ e ∈ l, validEvent e = true → eventCategory e ≠ c) →
      dictFind (l.foldl addEventCat acc) c = dictFind acc c := by
    intro l
    induction l with
    | nil => intro acc _; rfl
    | cons e rest ih =>
      intro acc hl
      rw [List.foldl_cons]
      rw [ih _ (fun e' he' => hl e' (List.mem_cons_of_mem _ he'))]
      unfold addEventCat
      by_cases hv : validEvent e
      · rw [if_pos hv, dictFind_upsert_ne _ _ _ _ (hl e (List.mem_cons_self _ _) hv)]
      · rw [if_neg hv]
  rw [categoryTime, key evs [] h]
  rfl

/-- The `Prod` boolean equality on title/hours pairs agrees with decidable
equality. -/
theorem prodBeq_eq (b a : String × ℚ) : (b == a) = decide (b = a) := by
  rcases b with ⟨b1, b2⟩; rcases a with ⟨a1, a2⟩
  show (b1 == a1 && b2 == a2) = _
  by_cases h1 : b1 = a1 <;> by_cases h2 : b2 = a2 <;> simp [h1, h2]

/-- `indexOf` does not depend on which of the two `BEq` instances is used. -/
theorem indexOf_inst_eq (a : String × ℚ) (l : List (String × ℚ)) :
    l.indexOf a = @List.indexOf _ instBEqOfDecidableEq a l := by
  unfold List.indexOf
  congr 1
  funext b
  rw [prodBeq_eq]
  rfl

/-- The lexicographic comparator used for the stability argument, spelled
out on pairs (index, (title, hours)). -/
theorem enumLE_hoursLE_iff (x y : ℕ × (String × ℚ)) :
    List.enumLE hoursLE x y = true ↔ (y.2.2 < x.2.2 ∨ (x.2.2 = y.2.2 ∧ x.1 ≤ y.1)) := by
  simp only [List.enumLE, hoursLE]
  by_cases h1 : y.2.2 ≤ x.2.2 <;> by_cases h2 : x.2.2 ≤ y.2.2 <;> simp [h1, h2]
  · constructor
    · intro h3; exact Or.inr ⟨le_antisymm h2 h1, h3⟩
    · rintro (h3 | ⟨h3, h4⟩)
      · exact absurd h2 (not_le.mpr h3)
      · exact h4
  · exact Or.inl (lt_of_le_not_le h1 h2)
  · exact fun h3 => absurd (le_of_eq h3.symm) h1
  · rcases le_total y.2.2 x.2.2 with h | h
    · exact absurd h h1
    · exact absurd h h2

theorem enumLE_hoursLE_trans (a b c : ℕ × (String × ℚ))
    (h1 : List.enumLE hoursLE a b = true) (h2 : List.enumLE hoursLE b c = true) :
    List.enumLE hoursLE a c = true := by
  rw [enumLE_hoursLE_iff] at *
  rcases h1 with h1 | ⟨h1, h1i⟩ <;> rcases h2 with h2 | ⟨h2, h2i⟩
  · exact Or.inl (lt_trans h2 h1)
  · exact Or.inl (h2 ▸ h1)
  · exact Or.inl (h1 ▸ h2)
  · exact Or.inr ⟨h1.trans h2, h1i.trans h2i⟩

theorem enumLE_hoursLE_total (a b : ℕ × (String × ℚ)) :
    (List.enumLE hoursLE a b || List.enumLE hoursLE b a) = true := by
  rw [Bool.or_eq_true, enumLE_hoursLE_iff, enumLE_hoursLE_iff]
  rcases lt_trichotomy a.2.2 b.2.2 with h | h | h
  · exact Or.inr (Or.inl h)
  · rcases Nat.le_total a.1 b.1 with hi | hi
    · exact Or.inl (Or.inr ⟨h, hi⟩)
    · exact Or.inr (Or.inr ⟨h.symm, hi⟩)
  · exact Or.inl (Or.inl h)

/-- Stability of the ranking sort: in the sorted list, two entries with
equal hours keep their original relative order. -/
theorem mergeSort_pairwise_stable (m : List (String × ℚ))
    (hn : m.Nodup) :
    (m.mergeSort hoursLE).Pairwise
      (fun a b => b.2 < a.2 ∨ (a.2 = b.2 ∧ m.indexOf a < m.indexOf b)) := by
  have henum := @List.mergeSort_enum _ hoursLE m
  rw [← henum, List.pairwise_map]
  have hsorted : (m.enum.mergeSort (List.enumLE hoursLE)).Pairwise
      (fun x y => List.enumLE hoursLE x y = true) :=
    List.sorted_mergeSort enumLE_hoursLE_trans enumLE_hoursLE_total m.enum
  have hperm : (m.enum.mergeSort (List.enumLE hoursLE)).Perm m.enum :=
    List.mergeSort_perm _ _
  have hfst : (m.enum.mergeSort (List.enumLE hoursLE)).Pairwise (fun x y => x.1 ≠ y.1) := by
    rw [← @List.pairwise_map _ _ Prod.fst]
    have hnr : (m.enum.map Prod.fst).Nodup := by
      rw [List.enum_map_fst]; exact List.nodup_range _
    exact hnr.perm (hperm.map Prod.fst).symm
  have hcomb := hsorted.and hfst
  refine List.Pairwise.imp_of_mem ?_ hcomb
  intro x y hx hy hxy
  obtain ⟨hle, hne⟩ := hxy
  rw [enumLE_hoursLE_iff] at hle
  have hxm : (x.1, x.2) ∈ m.enum := hperm.subset (by simpa using hx)
  have hym : (y.1, y.2) ∈ m.enum := hperm.subset (by simpa using hy)
  obtain ⟨hxlen, hxeq⟩ := List.mem_enum hxm
  obtain ⟨hylen, hyeq⟩ := List.mem_enum hym
  have hxi : m.indexOf x.2 = x.1 := by
    rw [indexOf_inst_eq]
    have h5 := List.get_indexOf hn ⟨x.1, hxlen⟩
    simpa [hxeq, List.get_eq_getElem] using h5
  have hyi : m.indexOf y.2 = y.1 := by
    rw [indexOf_inst_eq]
    have h5 := List.get_indexOf hn ⟨y.1, hylen⟩
    simpa [hyeq, List.get_eq_getElem] using h5
  rcases hle with hlt | ⟨heq, hij⟩
  · exact Or.inl hlt
  · exact Or.inr ⟨heq, by rw [hxi, hyi]; omega⟩

theorem hoursLE_trans (a b c : String × ℚ)
    (h1 : hoursLE a b = true) (h2 : hoursLE b c = true) : hoursLE a c = true := by
  simp only [hoursLE, decide_eq_true_eq] at *
  exact le_trans h2 h1

theorem hoursLE_total (a b : String × ℚ) : (hoursLE a b || hoursLE b a) = true := by
  simp only [hoursLE, Bool.or_eq_true, decide_eq_true_eq]
  exact le_total b.2 a.2

/-! ## Claim theorems -/

/-- Claim C1: per-category trend computation. For a back-filled
`hours_list` of length `L`: if `L ≥ 2` then `recent_avg` is the mean of
the last two entries, `older_avg` is the mean of the entries before the
last two when `L > 2` and the single earliest entry when `L = 2`,
`trend_change = recent_avg − older_avg`, `percentage_change` is
`trend_change / older_avg × 100` when `older_avg > 0` and `0` otherwise,
and `direction` is increasing / decreasing / stable by the ±0.5-hour
thresholds; if `L = 1` all the derived quantities degenerate as stated. -/
theorem trend_record_formula (l : List ℚ) :
    (2 ≤ l.length →
      (trendOf l).recentAvg = (l.drop (l.length - 2)).sum / 2
      ∧ (2 < l.length →
          (trendOf l).olderAvg = (l.take (l.length - 2)).sum / ((l.length - 2 : ℕ) : ℚ))
      ∧ (l.length = 2 → (trendOf l).olderAvg = l.headD 0)
      ∧ (trendOf l).trendChange = (trendOf l).recentAvg - (trendOf l).olderAvg
      ∧ (trendOf l).percentageChange =
          (if 0 < (trendOf l).olderAvg
           then (trendOf l).trendChange / (trendOf l).olderAvg * 100 else 0)
      ∧ (trendOf l).direction =
          (if 1/2 < (trendOf l).trendChange then "increasing"
           else if (trendOf l).trendChange < -(1/2) then "decreasing" else "stable"))
    ∧ (l.length = 1 →
      (trendOf l).recentAvg = l.headD 0
      ∧ (trendOf l).olderAvg = l.headD 0
      ∧ (trendOf l).trendChange = 0
      ∧ (trendOf l).percentageChange = 0
      ∧ (trendOf l).direction = "stable") := by
  constructor
  · intro h
    simp only [trendOf, if_pos h]
    refine ⟨trivial, fun h2 => ?_, fun h2 => ?_, trivial, trivial, trivial⟩
    · rw [if_pos h2, Nat.max_eq_right (by omega : 1 ≤ l.length - 2)]
    · rw [if_neg (by omega)]
  · intro h
    simp only [trendOf, if_neg (by omega : ¬ 2 ≤ l.length)]
    exact ⟨trivial, trivial, trivial, trivial, trivial⟩

/-- Witness for C1 on the spec's synthetic data `[10, 10, 20]`:
`recent_avg = 15` and the direction is increasing. -/
theorem trend_record_formula_witness :
    2 ≤ ([10, 10, 20] : List ℚ).length
    ∧ (trendOf ([10, 10, 20] : List ℚ)).recentAvg = 15
    ∧ (trendOf ([10, 10, 20] : List ℚ)).direction = "increasing" := by
  refine ⟨by decide, ?_, ?_⟩
  · have h := ((trend_record_formula ([10, 10, 20] : List ℚ)).1 (by decide)).1
    rw [h]; norm_num
  · norm_num [trendOf]

/-- Claim C2: back-fill invariant of the Weekly Trend Analyzer. Whatever
the per-week event lists are, `trends` contains exactly the table's 8
distinct category labels (the two Self-Maintenance tags deduplicated);
every entry's `hours_list` has length `num_weeks`; and a week in which a
category has no valid events contributes exactly `0` at that position. -/
theorem trends_backfill (weeks : List (List Event)) (num_weeks : ℕ)
    (hw : weeks.length = num_weeks) :
    (trendsOf (weeks.map categoryTime)).map (·.1)
      = ["Professional Tasks", "Meetings", "Social Connections", "Emotional Recharge",
         "Self-Maintenance", "Life Admin", "Mental Struggles", "Romance"]
    ∧ (∀ p ∈ trendsOf (weeks.map categoryTime), p.2.hoursList.length = num_weeks)
    ∧ (∀ p ∈ trendsOf (weeks.map categoryTime), ∀ i, i < num_weeks →
        (∀ e ∈ weeks.getD i [], validEvent e = true → eventCategory e ≠ p.1) →
        p.2.hoursList.getD i 0 = 0) := by
  refine ⟨?_, ?_, ?_⟩
  · rw [trendsOf, List.map_map]
    exact allCategoryHours_keys _
  · intro p hp
    obtain ⟨q, hq, rfl⟩ := List.mem_map.mp hp
    have hv := allCategoryHours_values _ _ hq
    simp only [trendOf_hoursList, hv, weekHours, List.length_map, hw]
  · intro p hp i hi hnone
    obtain ⟨q, hq, rfl⟩ := List.mem_map.mp hp
    have hv := allCategoryHours_values _ _ hq
    have hilen : i < weeks.length := hw ▸ hi
    simp only [trendOf_hoursList, hv, weekHours]
    rw [List.getD_eq_getElem _ _ (by simpa using hilen)]
    rw [List.getElem_map, List.getElem_map]
    have hwk : weeks[i] = weeks.getD i [] := (List.getD_eq_getElem _ _ hilen).symm
    rw [dictFind_categoryTime_none _ _ (by rw [hwk]; exact hnone)]
    rfl

/-- Witness for C2: one empty week still yields all 8 categories. -/
theorem trends_backfill_witness :
    (trendsOf (([[]] : List (List Event)).map categoryTime)).map (·.1)
      = ["Professional Tasks", "Meetings", "Social Connections", "Emotional Recharge",
         "Self-Maintenance", "Life Admin", "Mental Struggles", "Romance"] :=
  (trends_backfill [[]] 1 rfl).1

/-- Claim C3: the Duration Aggregator partitions time with no double
counting — the sum of all `category_time` totals equals the sum of the
durations of exactly the valid events. -/
theorem aggregation_partition (events : List Event) :
    ((categoryTime events).map (·.2)).sum
      = ((events.filter validEvent).map duration).sum :=
  categoryTime_sum_eq events

/-- Claim C4: the Ranking Engine's `top_n`. The ranking has length at most
`n`; it is sorted non-increasing by hours; ties (equal hours) keep the
original insertion order of the mapping (stability, hence identical
output on identical input); and it is applied with `n = 3` in the summary
analysis and `n = 10` in the category breakdown. -/
theorem topN_ranking (m : List (String × ℚ)) (n : ℕ)
    (hkeys : m.Pairwise (fun a b => a.1 ≠ b.1)) :
    (topN m n).length ≤ n
    ∧ (topN m n).Pairwise (fun a b => b.2 ≤ a.2)
    ∧ (topN m n).Pairwise
        (fun a b => b.2 < a.2 ∨ (a.2 = b.2 ∧ m.indexOf a < m.indexOf b))
    ∧ (∀ events, (analyze_events events).2
        = (categoryTitleDuration events).map (fun p => (p.1, topN p.2 3)))
    ∧ (∀ events target, (analyze_category_breakdown events target).top_events
        = topN (analyze_category_breakdown events target).event_types 10) := by
  have hn : m.Nodup := hkeys.imp (fun h heq => h (congrArg Prod.fst heq))
  refine ⟨?_, ?_, ?_, fun _ => rfl, fun _ _ => rfl⟩
  · simp only [topN, List.length_take]
    omega
  · have h1 := List.sorted_mergeSort hoursLE_trans hoursLE_total m
    have h2 : (m.mergeSort hoursLE).Pairwise (fun a b => b.2 ≤ a.2) :=
      h1.imp (fun h => by simpa [hoursLE] using h)
    exact List.Pairwise.sublist (List.take_sublist _ _) h2
  · exact List.Pairwise.sublist (List.take_sublist _ _) (mergeSort_pairwise_stable m hn)

/-- Witness for C4: a concrete ranking with a tie, evaluated. -/
theorem topN_ranking_witness :
    (topN [("a", (2:ℚ)), ("b", 3), ("c", 2)] 2).length ≤ 2
    ∧ (topN [("a", (2:ℚ)), ("b", 3), ("c", 2)] 2).Pairwise (fun a b => b.2 ≤ a.2)
    ∧ topN [("a", (2:ℚ)), ("b", 3), ("c", 2)] 2 = [("b", 3), ("a", 2)] := by
  have h := topN_ranking [("a", (2:ℚ)), ("b", 3), ("c", 2)] 2 (by decide)
  exact ⟨h.1, h.2.1, by norm_num [topN, List.mergeSort, List.merge, hoursLE]⟩

/-- Claim C5: `week_range` returns the Sunday-to-Saturday week containing
the reference date: the end is the start plus 6 days and falls on a
Saturday, the start is a Sunday, the reference date lies inside the week,
the start is the reference date itself when that is a Sunday and the most
recent prior Sunday otherwise. -/
theorem week_range_spec (ref : ℤ) :
    (get_week_range ref).2 = (get_week_range ref).1 + 6
    ∧ pyWeekday (get_week_range ref).2 = 5
    ∧ pyWeekday (get_week_range ref).1 = 6
    ∧ (get_week_range ref).1 ≤ ref ∧ ref ≤ (get_week_range ref).2
    ∧ (pyWeekday ref = 6 → (get_week_range ref).1 = ref)
    ∧ (pyWeekday ref ≠ 6 →
        (get_week_range ref).1 < ref
        ∧ ∀ d : ℤ, pyWeekday d = 6 → d < ref → d ≤ (get_week_range ref).1) := by
  have hpair : get_week_range ref =
      (if (ref + 6) % 7 ≠ 6 then ref - ((ref + 6) % 7 + 1) else ref,
       (if (ref + 6) % 7 ≠ 6 then ref - ((ref + 6) % 7 + 1) else ref) + 6) := rfl
  rw [hpair]
  simp only [pyWeekday]
  split_ifs with h
  · exact ⟨by trivial, by omega, by omega, by omega, by omega, fun hc => absurd hc h,
      fun _ => ⟨by omega, fun d hd hlt => by omega⟩⟩
  · exact ⟨by trivial, by omega, by omega, by omega, by omega, fun _ => rfl,
      fun hc => absurd (by omega : (ref + 6) % 7 = 6) hc⟩

/-- Witness for C5: 2024-03-10 is a Sunday, so the week starts there; a
mid-week reference (2024-03-12) still ends on a Saturday. -/
theorem week_range_spec_witness :
    (get_week_range (toordinal 2024 3 10)).1 = toordinal 2024 3 10
    ∧ pyWeekday (get_week_range (toordinal 2024 3 12)).2 = 5 :=
  ⟨(week_range_spec (toordinal 2024 3 10)).2.2.2.2.2.1 (by decide),
   (week_range_spec (toordinal 2024 3 12)).2.1⟩

/-- Claim C6: `custom_range` fails with the invalid-range error exactly
when the start date is after the end date, returns the pair unchanged
otherwise, and in particular fails on (2024-03-10, 2024-03-01). -/
theorem custom_range_spec (s e : ℤ) :
    ((∃ msg, validate_custom_range s e = Except.error msg) ↔ e < s)
    ∧ (s ≤ e → validate_custom_range s e = Except.ok (s, e))
    ∧ validate_custom_range (toordinal 2024 3 10) (toordinal 2024 3 1)
        = Except.error "Start date cannot be after end date" := by
  refine ⟨⟨?_, fun h => ⟨"Start date cannot be after end date", ?_⟩⟩, fun h => ?_, ?_⟩
  · rintro ⟨msg, hm⟩
    by_contra hc
    rw [validate_custom_range, if_neg hc] at hm
    exact Except.noConfusion hm
  · rw [validate_custom_range, if_pos h]
  · rw [validate_custom_range, if_neg (by omega)]
  · rfl

/-- Witness for C6 at concrete dates. -/
theorem custom_range_spec_witness :
    ((∃ msg, validate_custom_range 5 3 = Except.error msg) ↔ (3:ℤ) < 5)
    ∧ ((5:ℤ) ≤ 3 → validate_custom_range 5 3 = Except.ok (5, 3))
    ∧ validate_custom_range (toordinal 2024 3 10) (toordinal 2024 3 1)
        = Except.error "Start date cannot be after end date" :=
  custom_range_spec 5 3

/-- Claim C7: division guards of the Category Breakdown Analyzer. With
well-formed events (no negative durations): `category_percentage` is `0`
when the calendar total is `0` (never an error) and the percentage
formula otherwise; `event_type_percentages` is computed only when
`category_total_hours > 0` and is the empty mapping otherwise, even if
`event_types` is non-empty. -/
theorem breakdown_percentages (events : List Event) (target : String)
    (hpos : ∀ e ∈ events, validEvent e = true → 0 ≤ duration e) :
    ((analyze_category_breakdown events target).total_calendar_hours = 0 →
      (analyze_category_breakdown events target).category_percentage = 0)
    ∧ ((analyze_category_breakdown events target).total_calendar_hours ≠ 0 →
      (analyze_category_breakdown events target).category_percentage
        = (analyze_category_breakdown events target).category_total_hours
            / (analyze_category_breakdown events target).total_calendar_hours * 100)
    ∧ ((analyze_category_breakdown events target).category_total_hours ≤ 0 →
      (analyze_category_breakdown events target).event_type_percentages = [])
    ∧ (0 < (analyze_category_breakdown events target).category_total_hours →
      (analyze_category_breakdown events target).event_type_percentages
        = (analyze_category_breakdown events target).event_types.map
            (fun p => (p.1, p.2 /
              (analyze_category_breakdown events target).category_total_hours * 100))) := by
  have htot : (analyze_category_breakdown events target).total_calendar_hours
      = ((categoryTime events).map (·.2)).sum := rfl
  have hge : 0 ≤ (analyze_category_breakdown events target).total_calendar_hours := by
    rw [htot, categoryTime_sum_eq]
    refine List.sum_nonneg ?_
    intro x hx
    obtain ⟨e, he, rfl⟩ := List.mem_map.mp hx
    obtain ⟨he1, he2⟩ := List.mem_filter.mp he
    exact hpos e he1 he2
  have hpct : (analyze_category_breakdown events target).category_percentage
      = (if 0 < (analyze_category_breakdown events target).total_calendar_hours
         then (analyze_category_breakdown events target).category_total_hours
              / (analyze_category_breakdown events target).total_calendar_hours * 100
         else 0) := rfl
  have hetp : (analyze_category_breakdown events target).event_type_percentages
      = (if 0 < (analyze_category_breakdown events target).category_total_hours
         then (analyze_category_breakdown events target).event_types.map
               (fun p => (p.1, p.2 /
                 (analyze_category_breakdown events target).category_total_hours * 100))
         else []) := rfl
  refine ⟨fun h0 => ?_, fun h0 => ?_, fun h0 => ?_, fun h0 => ?_⟩
  · rw [hpct, h0]
    simp
  · rw [hpct, if_pos (lt_of_le_of_ne hge (Ne.symm h0))]
  · rw [hetp, if_neg (not_lt.mpr h0)]
  · rw [hetp, if_pos h0]

/-- Witness for C7: a one-hour meeting event, percentages computed. -/
theorem breakdown_percentages_witness :
    (analyze_category_breakdown
        [⟨some 0, some 3600, some "7", some "Standup"⟩] "Meetings").event_type_percentages
      = (analyze_category_breakdown
          [⟨some 0, some 3600, some "7", some "Standup"⟩] "Meetings").event_types.map
          (fun p => (p.1, p.2 /
            (analyze_category_breakdown
              [⟨some 0, some 3600, some "7", some "Standup"⟩] "Meetings").category_total_hours
            * 100)) :=
  (breakdown_percentages [⟨some 0, some 3600, some "7", some "Standup"⟩] "Meetings"
    (by
      intro e he hv
      rw [List.mem_singleton] at he
      subst he
      norm_num [duration])).2.2.2
    (by
      show (0:ℚ) < (dictFind (categoryTime [⟨some 0, some 3600, some "7", some "Standup"⟩])
        "Meetings").getD 0
      norm_num [categoryTime, addEventCat, validEvent, classify, effectiveColorId,
        dictFind, List.find?, eventCategory, upsert, duration]
      decide)

/-- Claim C8: tag handling. An event with start and end but no colour tag
is classified through the default tag `'0'` into Self-Maintenance and is
aggregated; an event whose explicit tag is absent from the classification
table is invalid and excluded from aggregation. -/
theorem default_and_unknown_tags (e : Event)
    (hs : e.startDT.isSome = true) (he : e.endDT.isSome = true) :
    (e.colorId = none →
       validEvent e = true ∧ eventCategory e = "Self-Maintenance"
       ∧ categoryTime [e] = [("Self-Maintenance", duration e)])
    ∧ (∀ tag, e.colorId = some tag → dictFind COLOR_CATEGORY_MAP tag = none →
       validEvent e = false ∧ categoryTime [e] = []) := by
  constructor
  · intro hc
    have hclass : classify e = some "Self-Maintenance" := by
      simp only [classify, effectiveColorId, hc, Option.getD_none]
      rfl
    have hv : validEvent e = true := by simp [validEvent, hs, he, hclass]
    have hcat : eventCategory e = "Self-Maintenance" := by simp [eventCategory, hclass]
    refine ⟨hv, hcat, ?_⟩
    simp [categoryTime, addEventCat, hv, upsert, hcat]
  · intro tag hc hnone
    have hclass : classify e = none := by
      simp [classify, effectiveColorId, hc, hnone]
    have hv : validEvent e = false := by simp [validEvent, hclass]
    exact ⟨hv, by simp [categoryTime, addEventCat, hv]⟩

/-- Witness for C8: a tagless event lands in Self-Maintenance; an event
tagged `'99'` is dropped. -/
theorem default_and_unknown_tags_witness :
    (validEvent ⟨some 0, some 3600, none, some "Walk"⟩ = true
      ∧ eventCategory ⟨some 0, some 3600, none, some "Walk"⟩ = "Self-Maintenance"
      ∧ categoryTime [⟨some 0, some 3600, none, some "Walk"⟩]
          = [("Self-Maintenance", duration ⟨some 0, some 3600, none, some "Walk"⟩)])
    ∧ (validEvent ⟨some 0, some 3600, some "99", some "Walk"⟩ = false
      ∧ categoryTime [⟨some 0, some 3600, some "99", some "Walk"⟩] = []) :=
  ⟨(default_and_unknown_tags ⟨some 0, some 3600, none, some "Walk"⟩
      (by decide) (by decide)).1 rfl,
   (default_and_unknown_tags ⟨some 0, some 3600, some "99", some "Walk"⟩
      (by decide) (by decide)).2 "99" rfl (by decide)⟩

/-- Claim C9: title normalisation differs between views. Two valid events
of the same category whose trimmed titles differ only in letter case
merge into one title key in the summary aggregation (trim + case-fold)
but stay distinct keys in the category breakdown (trim only). -/
theorem case_folding_two_views (e1 e2 : Event)
    (h1 : validEvent e1 = true) (h2 : validEvent e2 = true)
    (hcat : eventCategory e1 = eventCategory e2)
    (hsum : summaryTitle e1 = summaryTitle e2)
    (hbrk : breakdownTitle e1 ≠ breakdownTitle e2) :
    categoryTitleDuration [e1, e2]
      = [(eventCategory e1, [(summaryTitle e1, duration e1 + duration e2)])]
    ∧ (analyze_category_breakdown [e1, e2] (eventCategory e1)).event_types
      = [(breakdownTitle e1, duration e1), (breakdownTitle e2, duration e2)] := by
  constructor
  · simp [categoryTitleDuration, addEventTitle, h1, h2, upsertNested, upsert, hcat, hsum]
  · simp [analyze_category_breakdown, addEventBreakdown, h1, h2, upsert, hcat, hbrk,
      Ne.symm hbrk]

/-- Witness for C9: "Standup" vs "standup" (one hour and two hours). -/
theorem case_folding_two_views_witness :
    categoryTitleDuration
        [⟨some 0, some 3600, some "7", some "Standup"⟩,
         ⟨some 0, some 7200, some "7", some "standup"⟩]
      = [(eventCategory ⟨some 0, some 3600, some "7", some "Standup"⟩,
          [(summaryTitle ⟨some 0, some 3600, some "7", some "Standup"⟩,
            duration ⟨some 0, some 3600, some "7", some "Standup"⟩
              + duration ⟨some 0, some 7200, some "7", some "standup"⟩)])]
    ∧ (analyze_category_breakdown
        [⟨some 0, some 3600, some "7", some "Standup"⟩,
         ⟨some 0, some 7200, some "7", some "standup"⟩]
        (eventCategory ⟨some 0, some 3600, some "7", some "Standup"⟩)).event_types
      = [(breakdownTitle ⟨some 0, some 3600, some "7", some "Standup"⟩,
          duration ⟨some 0, some 3600, some "7", some "Standup"⟩),
         (breakdownTitle ⟨some 0, some 7200, some "7", some "standup"⟩,
          duration ⟨some 0, some 7200, some "7", some "standup"⟩)] :=
  case_folding_two_views
    ⟨some 0, some 3600, some "7", some "Standup"⟩
    ⟨some 0, some 7200, some "7", some "standup"⟩
    (by decide) (by decide) (by decide) (by decide) (by decide)

/-- Claim C10: a valid event with no title is not skipped — its duration
is aggregated under the key `"untitled"` in the summary view (trim then
case-fold of the default `'Untitled'`) and under `"Untitled"` in the
category breakdown view (trim only). -/
theorem untitled_events_kept (e : Event)
    (hs : e.startDT.isSome = true) (he : e.endDT.isSome = true)
    (hc : (classify e).isSome = true) (hsum : e.summary = none) :
    validEvent e = true
    ∧ summaryTitle e = "untitled"
    ∧ breakdownTitle e = "Untitled"
    ∧ categoryTitleDuration [e] = [(eventCategory e, [("untitled", duration e)])]
    ∧ (analyze_category_breakdown [e] (eventCategory e)).event_types
        = [("Untitled", duration e)] := by
  have hv : validEvent e = true := by simp [validEvent, hs, he, hc]
  have h1 : summaryTitle e = "untitled" := by
    simp only [summaryTitle, hsum, Option.getD_none]
    decide
  have h2 : breakdownTitle e = "Untitled" := by
    simp only [breakdownTitle, hsum, Option.getD_none]
    decide
  refine ⟨hv, h1, h2, ?_, ?_⟩
  · simp [categoryTitleDuration, addEventTitle, hv, upsertNested, h1]
  · simp [analyze_category_breakdown, addEventBreakdown, hv, upsert, h2]

/-- Witness for C10: a titleless one-hour meeting event. -/
theorem untitled_events_kept_witness :
    validEvent ⟨some 0, some 3600, some "7", none⟩ = true
    ∧ summaryTitle ⟨some 0, some 3600, some "7", none⟩ = "untitled"
    ∧ breakdownTitle ⟨some 0, some 3600, some "7", none⟩ = "Untitled" :=
  have h := untitled_events_kept ⟨some 0, some 3600, some "7", none⟩
    (by decide) (by decide) (by decide) rfl
  ⟨h.1, h.2.1, h.2.2.1⟩

end CalendarTracker
